import Mathlib

/-!
Verification of `combine_code.py`, a tree concatenator: it walks a directory
tree with `os.walk`, prunes a fixed set of directory names in place before
descending, filters files by a fixed set of name suffixes, and writes each
surviving file's best-effort-decoded content to a single output file behind a
`# ==== <relative path> ====` header framed by blank lines.

The file system is embedded as a finite tree (`FS`).  A file node carries
`Option (List Nat)`: `some bytes` is a file whose raw bytes can be read at
open time, `none` is a file whose `open(..., 'r')` raises `OSError` at
processing time (e.g. deleted or permission-denied between enumeration and
opening).  Directory entries are kept in list order, standing for the stable
enumeration order the underlying file system yields within one run.

A run is modelled by `runMainFrom`: it returns `some output` when the script
terminates normally with the given final output-file content, and `none` when
an exception propagates to the top level (abnormal termination).  Decoding
uses a full UTF-8 decoder with the `errors='ignore'` policy (invalid byte
sequences are dropped, maximal-subpart style, as CPython's codec does).
-/

/-- `EXCLUDE_DIRS` from `combine_code.py`: directory base names that are
pruned from `dirnames` in place before `os.walk` descends.  Python iterates a
`set`, but only membership is ever tested, so a list is a faithful carrier. -/
def EXCLUDE_DIRS : List String :=
  ["node_modules", "venv", "env", "__pycache__", ".git", ".next", "dist",
   "build", "packages", ".turbo", ".cache"]

/-- `EXCLUDE_EXTS` from `combine_code.py`: literal name suffixes whose
carriers are skipped by the file filter. -/
def EXCLUDE_EXTS : List String := [".json", ".pdf", ".txt"]

/-- Python's `str.endswith(sfx)`: the character sequence of `s` ends with the
character sequence of `sfx` (a literal suffix test, not a parsed extension). -/
def endswith (s sfx : String) : Bool := sfx.data.isSuffixOf s.data

/-- `should_include_file(filename)` from `combine_code.py`:
`not any(filename.endswith(ext) for ext in EXCLUDE_EXTS)`. -/
def should_include_file (filename : String) : Bool :=
  ! EXCLUDE_EXTS.any (fun ext => endswith filename ext)

/-- A UTF-8 continuation byte: `0x80 ≤ b ≤ 0xBF`. -/
def isCont (b : Nat) : Bool := 0x80 ≤ b && b ≤ 0xBF

/-- Valid first continuation byte after a three-byte lead `b`.  `0xE0`
requires `0xA0-0xBF` (rejecting overlong forms) and `0xED` requires
`0x80-0x9F` (rejecting surrogates), exactly as CPython's UTF-8 codec does. -/
def cont1ok3 (b c1 : Nat) : Bool :=
  if b = 0xE0 then 0xA0 ≤ c1 && c1 ≤ 0xBF
  else if b = 0xED then 0x80 ≤ c1 && c1 ≤ 0x9F
  else isCont c1

/-- Valid first continuation byte after a four-byte lead `b`.  `0xF0`
requires `0x90-0xBF` (rejecting overlong forms) and `0xF4` requires
`0x80-0x8F` (rejecting code points beyond U+10FFFF). -/
def cont1ok4 (b c1 : Nat) : Bool :=
  if b = 0xF0 then 0x90 ≤ c1 && c1 ≤ 0xBF
  else if b = 0xF4 then 0x80 ≤ c1 && c1 ≤ 0x8F
  else isCont c1

/-- One step of UTF-8 decoding at lead byte `b` with following bytes `bs`:
`(some cp, rest)` decodes one code point `cp`, `(none, rest)` drops an
ill-formed maximal subpart (the lead plus the continuation bytes already
accepted, as CPython's codec does), leaving `rest` to be decoded. An
incomplete sequence at end of input is dropped whole (`rest = []`). -/
def utf8Step (b : Nat) (bs : List Nat) : Option Nat × List Nat :=
  if b < 0x80 then (some b, bs)
  else if b < 0xC2 then
    -- stray continuation byte or overlong two-byte lead (0xC0/0xC1): dropped
    (none, bs)
  else if b < 0xE0 then
    match bs with
    | [] => (none, [])
    | c1 :: bs1 =>
      if isCont c1 then (some ((b - 0xC0) * 0x40 + (c1 - 0x80)), bs1)
      else (none, bs)
  else if b < 0xF0 then
    match bs with
    | [] => (none, [])
    | c1 :: bs1 =>
      if cont1ok3 b c1 then
        match bs1 with
        | [] => (none, [])
        | c2 :: bs2 =>
          if isCont c2 then
            (some ((b - 0xE0) * 0x1000 + (c1 - 0x80) * 0x40 + (c2 - 0x80)), bs2)
          else (none, bs1)
      else (none, bs)
  else if b < 0xF5 then
    match bs with
    | [] => (none, [])
    | c1 :: bs1 =>
      if cont1ok4 b c1 then
        match bs1 with
        | [] => (none, [])
        | c2 :: bs2 =>
          if isCont c2 then
            match bs2 with
            | [] => (none, [])
            | c3 :: bs3 =>
              if isCont c3 then
                (some ((b - 0xF0) * 0x40000 + (c1 - 0x80) * 0x1000 +
                  (c2 - 0x80) * 0x40 + (c3 - 0x80)), bs3)
              else (none, bs2)
          else (none, bs1)
      else (none, bs)
  else
    -- 0xF5-0xFF can start no valid sequence: dropped
    (none, bs)

theorem utf8Step_length (b : Nat) (bs : List Nat) :
    (utf8Step b bs).2.length ≤ bs.length := by
  unfold utf8Step
  repeat' split
  all_goals simp_all
  all_goals omega

/-- The decoding loop, structurally recursive on a fuel argument so that it
reduces inside the kernel.  Each step consumes at least the lead byte, so
fuel equal to the number of remaining bytes is always enough and the
`fuel = 0` branch is unreachable from `decodeUtf8Ignore`. -/
def decodeUtf8Loop : Nat → List Nat → List Nat
  | 0, _ => []
  | _, [] => []
  | fuel + 1, b :: bs =>
    match utf8Step b bs with
    | (some cp, rest) => cp :: decodeUtf8Loop fuel rest
    | (none, rest) => decodeUtf8Loop fuel rest

/-- UTF-8 decoding with the `errors='ignore'` handler: the code points of the
valid sequences, with ill-formed input dropped. -/
def decodeUtf8Ignore (bytes : List Nat) : List Nat :=
  decodeUtf8Loop bytes.length bytes

/-- The text read by `open(path, 'r', encoding='utf-8', errors='ignore').read()`
from a file whose raw content is `bytes`. -/
def decodeIgnore (bytes : List Nat) : String :=
  String.mk ((decodeUtf8Ignore bytes).map Char.ofNat)

/-- A file-system entry: a regular file with its raw bytes (`none` when the
file cannot be opened for reading at processing time), or a directory with
its entries in enumeration order. -/
inductive FS : Type where
  | file (nm : String) (bytes : Option (List Nat)) : FS
  | dir (nm : String) (entries : List FS) : FS

/-- Base name of an entry. -/
def FS.name : FS → String
  | .file nm _ => nm
  | .dir nm _ => nm

/-- One output record: the relative path of a file as its component list
(directories from the root, then the file name), and the decoded content
written after its header. -/
abbrev Rec := List String × String

/-- `os.path.relpath(os.path.join(dirpath, filename), root_dir)` joins the
path components below the root with the path separator. -/
def joinPath (comps : List String) : String := String.intercalate "/" comps

/-- The inner `for filename in filenames` loop of `main` for one directory:
records for the files of `entries` (directory entries are not files and are
not iterated here), in order, at relative directory `rd`.  A file passing
`should_include_file` whose `open` fails (`none` bytes) raises, aborting the
run: the whole result is `none`. -/
def fileRecs : List FS → List String → Option (List Rec)
  | [], _ => some []
  | FS.file nm ob :: rest, rd =>
    if should_include_file nm then
      Option.bind ob fun b =>
      Option.bind (fileRecs rest rd) fun more =>
      some ((rd ++ [nm], decodeIgnore b) :: more)
    else fileRecs rest rd
  | FS.dir _ _ :: rest, rd => fileRecs rest rd

/-- The descent of `os.walk` below one directory, after the in-place pruning
`dirnames[:] = [d for d in dirnames if d not in EXCLUDE_DIRS]`: for each
subdirectory entry that survives the pruning, in order, the records of its
whole subtree (its own files first, then its subdirectories, depth first).
A pruned subdirectory contributes nothing and its entries are never
examined. -/
def walkList : List FS → List String → Option (List Rec)
  | [], _ => some []
  | FS.file _ _ :: rest, rd => walkList rest rd
  | FS.dir nm es :: rest, rd =>
    Option.bind
      (if nm ∈ EXCLUDE_DIRS then some [] else
        Option.bind (fileRecs es (rd ++ [nm])) fun fs =>
        Option.bind (walkList es (rd ++ [nm])) fun ds =>
        some (fs ++ ds))
      fun here =>
    Option.bind (walkList rest rd) fun there =>
    some (here ++ there)

/-- Records produced by `os.walk` from one directory with entry list
`entries` at relative path `rd`: `os.walk` yields the directory itself first
(top-down), so its own files come first, then the subtrees of its surviving
subdirectories in order. -/
def walkDirRecs (entries : List FS) (rd : List String) : Option (List Rec) :=
  Option.bind (fileRecs entries rd) fun fs =>
  Option.bind (walkList entries rd) fun ds =>
  some (fs ++ ds)

/-- Records of a whole run on `root`.  `none` as root models a root path that
does not exist or cannot be listed: `os.walk`'s generator catches the
`OSError` from `os.scandir` and, with the default `onerror=None`, silently
ignores it, yielding no triples at all; likewise for a root path that is not
a directory.  The root directory's own name is never tested against
`EXCLUDE_DIRS` (the walk starts inside it). -/
def runRecords : Option FS → Option (List Rec)
  | none => some []
  | some (FS.file _ _) => some []
  | some (FS.dir _ es) => walkDirRecs es []

/-- The bytes `main` writes for one record:
`out.write(f"\n\n# ==== {rel_path} ====\n\n")` followed by
`out.write(f.read())`. -/
def recordString (r : Rec) : String :=
  "\n\n# ==== " ++ joinPath r.1 ++ " ====\n\n" ++ r.2

/-- `open(output_file, 'w', ...)` truncates: whatever the output file held
before the run, the handle starts from empty content. -/
def openTruncate (priorContent : String) : String := ""

/-- A whole run of `main`, given the output file's prior content and the
root.  `some s` means the script terminated normally leaving the output file
with content `s`; `none` means an uncaught exception aborted the run. -/
def runMainFrom (priorContent : String) (root : Option FS) : Option String :=
  Option.map
    (fun rs => openTruncate priorContent ++ String.join (rs.map recordString))
    (runRecords root)

/-- A run of `main` with no pre-existing output file. -/
def runMain : Option FS → Option String := runMainFrom ""

/-- `FileAt entries dirs nm ob`: the entry list `entries` contains, below the
chain of directories named `dirs`, a file named `nm` with bytes `ob`. -/
inductive FileAt : List FS → List String → String → Option (List Nat) → Prop where
  | here {entries : List FS} {nm : String} {ob : Option (List Nat)} :
      FS.file nm ob ∈ entries → FileAt entries [] nm ob
  | deeper {entries : List FS} {d : String} {es : List FS} {dirs : List String}
      {nm : String} {ob : Option (List Nat)} :
      FS.dir d es ∈ entries → FileAt es dirs nm ob →
      FileAt entries (d :: dirs) nm ob

mutual

/-- Every file node of the entry reads successfully (its bytes are `some`). -/
def readableEntry : FS → Bool
  | .file _ ob => ob.isSome
  | .dir _ es => allReadable es

/-- Every file node anywhere below the entry list reads successfully. -/
def allReadable : List FS → Bool
  | [] => true
  | e :: rest => readableEntry e && allReadable rest

end

mutual

/-- Entry names are pairwise distinct at every level of the entry, as a real
file system guarantees within one directory. -/
def wfEntry : FS → Bool
  | .file _ _ => true
  | .dir _ es => wfList es

/-- Entry names are pairwise distinct at every level below the list. -/
def wfList : List FS → Bool
  | [] => true
  | e :: rest =>
    rest.all (fun e2 => e2.name != e.name) && wfEntry e && wfList rest

end

/-! ### Unfolding lemmas -/

theorem walkDirRecs_eq_some {es : List FS} {rd : List String} {rs : List Rec} :
    walkDirRecs es rd = some rs ↔
      ∃ fs ds, fileRecs es rd = some fs ∧ walkList es rd = some ds ∧
        rs = fs ++ ds := by
  constructor
  · intro h
    rcases hf : fileRecs es rd with _ | fs
    · simp [walkDirRecs, hf] at h
    rcases hw : walkList es rd with _ | ds
    · simp [walkDirRecs, hf, hw] at h
    refine ⟨fs, ds, rfl, rfl, ?_⟩
    simp [walkDirRecs, hf, hw] at h
    exact h.symm
  · rintro ⟨fs, ds, hf, hw, rfl⟩
    simp [walkDirRecs, hf, hw]

theorem walkDirRecs_eq_none {es : List FS} {rd : List String} :
    walkDirRecs es rd = none ↔
      fileRecs es rd = none ∨ walkList es rd = none := by
  rcases hf : fileRecs es rd with _ | fs <;>
    rcases hw : walkList es rd with _ | ds <;>
    simp [walkDirRecs, hf, hw]

theorem walkList_cons_file {nm : String} {ob : Option (List Nat)}
    {rest : List FS} {rd : List String} :
    walkList (FS.file nm ob :: rest) rd = walkList rest rd := by
  simp [walkList]

theorem walkList_cons_dir {nm : String} {es rest : List FS} {rd : List String}
    (h : nm ∉ EXCLUDE_DIRS) :
    walkList (FS.dir nm es :: rest) rd =
      Option.bind (walkDirRecs es (rd ++ [nm])) fun here =>
      Option.bind (walkList rest rd) fun there => some (here ++ there) := by
  simp [walkList, walkDirRecs, if_neg h]

theorem walkList_cons_dir_excl {nm : String} {es rest : List FS}
    {rd : List String} (h : nm ∈ EXCLUDE_DIRS) :
    walkList (FS.dir nm es :: rest) rd = walkList rest rd := by
  rcases hw : walkList rest rd with _ | there <;>
    simp [walkList, if_pos h, hw]

/-! ### Lemmas about the file loop -/

theorem fileRecs_sound {es : List FS} {rd : List String} {fs : List Rec}
    (h : fileRecs es rd = some fs) :
    ∀ r ∈ fs, ∃ nm b, r = (rd ++ [nm], decodeIgnore b) ∧
      should_include_file nm = true ∧ FS.file nm (some b) ∈ es := by
  induction es generalizing fs with
  | nil =>
    simp [fileRecs] at h
    subst h
    simp
  | cons e rest ih =>
    intro r hr
    cases e with
    | file nm ob =>
      by_cases hinc : should_include_file nm = true
      · rcases ob with _ | b
        · simp [fileRecs, hinc] at h
        · rcases hrest : fileRecs rest rd with _ | more
          · simp [fileRecs, hinc, hrest] at h
          · simp [fileRecs, hinc, hrest] at h
            subst h
            rcases List.mem_cons.1 hr with hr | hr
            · exact ⟨nm, b, hr, hinc, List.mem_cons_self _ _⟩
            · rcases ih hrest r hr with ⟨nm2, b2, h1, h2, h3⟩
              exact ⟨nm2, b2, h1, h2, List.mem_cons_of_mem _ h3⟩
      · simp [fileRecs, hinc] at h
        rcases ih h r hr with ⟨nm2, b2, h1, h2, h3⟩
        exact ⟨nm2, b2, h1, h2, List.mem_cons_of_mem _ h3⟩
    | dir d des =>
      simp [fileRecs] at h
      rcases ih h r hr with ⟨nm2, b2, h1, h2, h3⟩
      exact ⟨nm2, b2, h1, h2, List.mem_cons_of_mem _ h3⟩

theorem fileRecs_complete {es : List FS} {rd : List String} {fs : List Rec}
    {nm : String} {b : List Nat}
    (h : fileRecs es rd = some fs) (hmem : FS.file nm (some b) ∈ es)
    (hinc : should_include_file nm = true) :
    (rd ++ [nm], decodeIgnore b) ∈ fs := by
  induction es generalizing fs with
  | nil => simp at hmem
  | cons e rest ih =>
    rcases List.mem_cons.1 hmem with he | hmem2
    · subst he
      rcases hrest : fileRecs rest rd with _ | more
      · simp [fileRecs, hinc, hrest] at h
      · simp [fileRecs, hinc, hrest] at h
        subst h
        exact List.mem_cons_self _ _
    · cases e with
      | file nm2 ob2 =>
        by_cases hinc2 : should_include_file nm2 = true
        · rcases ob2 with _ | b2
          · simp [fileRecs, hinc2] at h
          · rcases hrest : fileRecs rest rd with _ | more
            · simp [fileRecs, hinc2, hrest] at h
            · simp [fileRecs, hinc2, hrest] at h
              subst h
              exact List.mem_cons_of_mem _ (ih hrest hmem2)
        · simp [fileRecs, hinc2] at h
          exact ih h hmem2
      | dir d des =>
        simp [fileRecs] at h
        exact ih h hmem2

theorem fileRecs_none_of_unreadable {es : List FS} {rd : List String}
    {nm : String} (hmem : FS.file nm none ∈ es)
    (hinc : should_include_file nm = true) :
    fileRecs es rd = none := by
  induction es with
  | nil => simp at hmem
  | cons e rest ih =>
    rcases List.mem_cons.1 hmem with he | hmem2
    · subst he
      simp [fileRecs, hinc]
    · cases e with
      | file nm2 ob2 =>
        by_cases hinc2 : should_include_file nm2 = true
        · rcases ob2 with _ | b2
          · simp [fileRecs, hinc2]
          · simp [fileRecs, hinc2, ih hmem2]
        · simp [fileRecs, hinc2, ih hmem2]
      | dir d des =>
        simp [fileRecs, ih hmem2]

theorem fileRecs_some_of_readable {es : List FS} {rd : List String}
    (h : ∀ nm ob, FS.file nm ob ∈ es → ob.isSome = true) :
    ∃ fs, fileRecs es rd = some fs := by
  induction es with
  | nil => exact ⟨[], rfl⟩
  | cons e rest ih =>
    rcases ih (fun nm ob hm => h nm ob (List.mem_cons_of_mem _ hm)) with ⟨fs, hfs⟩
    cases e with
    | file nm ob =>
      have hob := h nm ob (List.mem_cons_self _ _)
      rcases ob with _ | b
      · simp at hob
      by_cases hinc : should_include_file nm = true
      · exact ⟨(rd ++ [nm], decodeIgnore b) :: fs, by simp [fileRecs, hinc, hfs]⟩
      · exact ⟨fs, by simp [fileRecs, hinc, hfs]⟩
    | dir d des =>
      exact ⟨fs, by simp [fileRecs, hfs]⟩

/-! ### Lemmas about the descent -/

theorem walkList_sound {es : List FS} {rd : List String} {rs : List Rec}
    (h : walkList es rd = some rs) :
    ∀ r ∈ rs, ∃ d es2 rs2, FS.dir d es2 ∈ es ∧ d ∉ EXCLUDE_DIRS ∧
      walkDirRecs es2 (rd ++ [d]) = some rs2 ∧ r ∈ rs2 := by
  induction es generalizing rs with
  | nil =>
    simp [walkList] at h
    subst h
    simp
  | cons e rest ih =>
    intro r hr
    cases e with
    | file nm ob =>
      rw [walkList_cons_file] at h
      rcases ih h r hr with ⟨d, es2, rs2, h1, h2, h3, h4⟩
      exact ⟨d, es2, rs2, List.mem_cons_of_mem _ h1, h2, h3, h4⟩
    | dir nm es2 =>
      by_cases hx : nm ∈ EXCLUDE_DIRS
      · rw [walkList_cons_dir_excl hx] at h
        rcases ih h r hr with ⟨d, es3, rs3, h1, h2, h3, h4⟩
        exact ⟨d, es3, rs3, List.mem_cons_of_mem _ h1, h2, h3, h4⟩
      · rw [walkList_cons_dir hx] at h
        rcases hwd : walkDirRecs es2 (rd ++ [nm]) with _ | here
        · simp [hwd] at h
        rcases hwl : walkList rest rd with _ | there
        · simp [hwd, hwl] at h
        simp [hwd, hwl] at h
        subst h
        rcases List.mem_append.1 hr with hr | hr
        · exact ⟨nm, es2, here, List.mem_cons_self _ _, hx, hwd, hr⟩
        · rcases ih hwl r hr with ⟨d, es3, rs3, h1, h2, h3, h4⟩
          exact ⟨d, es3, rs3, List.mem_cons_of_mem _ h1, h2, h3, h4⟩

theorem walkList_complete {es : List FS} {rd : List String} {rs : List Rec}
    {d : String} {es2 : List FS} (h : walkList es rd = some rs)
    (hmem : FS.dir d es2 ∈ es) (hd : d ∉ EXCLUDE_DIRS) :
    ∃ rs2, walkDirRecs es2 (rd ++ [d]) = some rs2 ∧ ∀ x ∈ rs2, x ∈ rs := by
  induction es generalizing rs with
  | nil => simp at hmem
  | cons e rest ih =>
    rcases List.mem_cons.1 hmem with he | hmem2
    · subst he
      rw [walkList_cons_dir hd] at h
      rcases hwd : walkDirRecs es2 (rd ++ [d]) with _ | here
      · simp [hwd] at h
      rcases hwl : walkList rest rd with _ | there
      · simp [hwd, hwl] at h
      simp [hwd, hwl] at h
      subst h
      exact ⟨here, rfl, fun x hx => List.mem_append.2 (Or.inl hx)⟩
    · cases e with
      | file nm ob =>
        rw [walkList_cons_file] at h
        exact ih h hmem2
      | dir nm es3 =>
        by_cases hx : nm ∈ EXCLUDE_DIRS
        · rw [walkList_cons_dir_excl hx] at h
          exact ih h hmem2
        · rw [walkList_cons_dir hx] at h
          rcases hwd : walkDirRecs es3 (rd ++ [nm]) with _ | here
          · simp [hwd] at h
          rcases hwl : walkList rest rd with _ | there
          · simp [hwd, hwl] at h
          simp [hwd, hwl] at h
          subst h
          rcases ih hwl hmem2 with ⟨rs2, h1, h2⟩
          exact ⟨rs2, h1, fun x hx2 => List.mem_append.2 (Or.inr (h2 x hx2))⟩

theorem walkList_none {es : List FS} {rd : List String} {d : String}
    {es2 : List FS} (hmem : FS.dir d es2 ∈ es) (hd : d ∉ EXCLUDE_DIRS)
    (hn : walkDirRecs es2 (rd ++ [d]) = none) :
    walkList es rd = none := by
  induction es with
  | nil => simp at hmem
  | cons e rest ih =>
    rcases List.mem_cons.1 hmem with he | hmem2
    · subst he
      rw [walkList_cons_dir hd, hn]
      rfl
    · cases e with
      | file nm ob => rw [walkList_cons_file]; exact ih hmem2
      | dir nm es3 =>
        by_cases hx : nm ∈ EXCLUDE_DIRS
        · rw [walkList_cons_dir_excl hx]; exact ih hmem2
        · rw [walkList_cons_dir hx, ih hmem2]
          rcases walkDirRecs es3 (rd ++ [nm]) with _ | here <;> rfl

theorem walkList_some_of {es : List FS} {rd : List String}
    (h : ∀ d es2, FS.dir d es2 ∈ es → d ∉ EXCLUDE_DIRS →
      ∃ rs2, walkDirRecs es2 (rd ++ [d]) = some rs2) :
    ∃ ds, walkList es rd = some ds := by
  induction es with
  | nil => exact ⟨[], by simp [walkList]⟩
  | cons e rest ih =>
    rcases ih (fun d es2 hm hd => h d es2 (List.mem_cons_of_mem _ hm) hd)
      with ⟨ds, hds⟩
    cases e with
    | file nm ob => exact ⟨ds, by rw [walkList_cons_file, hds]⟩
    | dir nm es2 =>
      by_cases hx : nm ∈ EXCLUDE_DIRS
      · exact ⟨ds, by rw [walkList_cons_dir_excl hx, hds]⟩
      · rcases h nm es2 (List.mem_cons_self _ _) hx with ⟨rs2, hrs2⟩
        exact ⟨rs2 ++ ds, by rw [walkList_cons_dir hx, hrs2, hds]; rfl⟩

/-! ### Size helpers for induction over the tree -/

theorem sizeOf_entries_lt_of_mem {d : String} {es2 es : List FS}
    (h : FS.dir d es2 ∈ es) : sizeOf es2 < sizeOf es := by
  have h1 := List.sizeOf_lt_of_mem h
  have h2 : sizeOf (FS.dir d es2) = 1 + sizeOf d + sizeOf es2 := by
    simp [FS.dir.sizeOf_spec]
  omega

/-! ### Soundness: every record comes from a reachable included file -/

theorem walkDir_sound_aux (n : Nat) :
    ∀ es : List FS, sizeOf es < n → ∀ (rd : List String) (rs : List Rec),
      walkDirRecs es rd = some rs → ∀ r ∈ rs,
        ∃ dirs nm bytes, FileAt es dirs nm (some bytes) ∧
          r = (rd ++ (dirs ++ [nm]), decodeIgnore bytes) ∧
          should_include_file nm = true ∧ ∀ c ∈ dirs, c ∉ EXCLUDE_DIRS := by
  induction n with
  | zero => intro es h; omega
  | succ n ih =>
    intro es hsz rd rs h r hr
    rcases walkDirRecs_eq_some.1 h with ⟨fs, ds, hf, hw, rfl⟩
    rcases List.mem_append.1 hr with hr | hr
    · rcases fileRecs_sound hf r hr with ⟨nm, b, rfl, hinc, hmem⟩
      exact ⟨[], nm, b, FileAt.here hmem, rfl, hinc, by simp⟩
    · rcases walkList_sound hw r hr with ⟨d, es2, rs2, hmem, hd, hwd, hr2⟩
      have hlt : sizeOf es2 < n :=
        lt_of_lt_of_le (sizeOf_entries_lt_of_mem hmem) (Nat.lt_succ_iff.1 hsz)
      rcases ih es2 hlt (rd ++ [d]) rs2 hwd r hr2
        with ⟨dirs, nm, bytes, hfa, hre, hinc, hclean⟩
      refine ⟨d :: dirs, nm, bytes, FileAt.deeper hmem hfa, ?_, hinc, ?_⟩
      · rw [hre]; simp
      · intro c hc
        rcases List.mem_cons.1 hc with rfl | hc
        · exact hd
        · exact hclean c hc

theorem walkDir_sound {es : List FS} {rd : List String} {rs : List Rec}
    (h : walkDirRecs es rd = some rs) :
    ∀ r ∈ rs, ∃ dirs nm bytes, FileAt es dirs nm (some bytes) ∧
      r = (rd ++ (dirs ++ [nm]), decodeIgnore bytes) ∧
      should_include_file nm = true ∧ ∀ c ∈ dirs, c ∉ EXCLUDE_DIRS :=
  walkDir_sound_aux (sizeOf es + 1) es (Nat.lt_succ_self _) rd rs h

/-! ### Completeness: every reachable included readable file has a record -/

theorem walkDir_complete_gen {es : List FS} {dirs : List String} {nm : String}
    {ob : Option (List Nat)} (hfa : FileAt es dirs nm ob) :
    ∀ {bytes : List Nat} {rd : List String} {rs : List Rec},
      ob = some bytes → walkDirRecs es rd = some rs →
      (∀ c ∈ dirs, c ∉ EXCLUDE_DIRS) → should_include_file nm = true →
      (rd ++ (dirs ++ [nm]), decodeIgnore bytes) ∈ rs := by
  induction hfa with
  | here hmem =>
    intro bytes rd rs hob h hclean hinc
    subst hob
    rcases walkDirRecs_eq_some.1 h with ⟨fs, ds, hf, hw, rfl⟩
    simpa using List.mem_append.2 (Or.inl (fileRecs_complete hf hmem hinc))
  | deeper hmem hfa2 ih =>
    rename_i d es2 dirs2 nm2 ob2
    intro bytes rd rs hob h hclean hinc
    subst hob
    rcases walkDirRecs_eq_some.1 h with ⟨fs, ds, hf, hw, rfl⟩
    have hd : d ∉ EXCLUDE_DIRS := hclean d (List.mem_cons_self _ _)
    rcases walkList_complete hw hmem hd with ⟨rs2, hwd, hsub⟩
    have hin := ih rfl hwd (fun c hc => hclean c (List.mem_cons_of_mem _ hc)) hinc
    have hin2 := hsub _ hin
    have hfix : (rd ++ [d]) ++ (dirs2 ++ [nm2]) = rd ++ ((d :: dirs2) ++ [nm2]) := by
      simp
    rw [hfix] at hin2
    exact List.mem_append.2 (Or.inr hin2)

theorem walkDir_complete {es : List FS} {dirs : List String} {nm : String}
    {bytes : List Nat} {rd : List String} {rs : List Rec}
    (h : walkDirRecs es rd = some rs) (hfa : FileAt es dirs nm (some bytes))
    (hclean : ∀ c ∈ dirs, c ∉ EXCLUDE_DIRS)
    (hinc : should_include_file nm = true) :
    (rd ++ (dirs ++ [nm]), decodeIgnore bytes) ∈ rs :=
  walkDir_complete_gen hfa rfl h hclean hinc

/-! ### Failure propagation: an unreadable reachable included file aborts -/

theorem walkDir_none_gen {es : List FS} {dirs : List String} {nm : String}
    {ob : Option (List Nat)} (hfa : FileAt es dirs nm ob) :
    ob = none → (∀ c ∈ dirs, c ∉ EXCLUDE_DIRS) →
    should_include_file nm = true →
    ∀ rd, walkDirRecs es rd = none := by
  induction hfa with
  | here hmem =>
    intro hob hclean hinc rd
    subst hob
    exact walkDirRecs_eq_none.2 (Or.inl (fileRecs_none_of_unreadable hmem hinc))
  | deeper hmem hfa2 ih =>
    rename_i d es2 dirs2 nm2 ob2
    intro hob hclean hinc rd
    have hd : d ∉ EXCLUDE_DIRS := hclean d (List.mem_cons_self _ _)
    have hn := ih hob (fun c hc => hclean c (List.mem_cons_of_mem _ hc)) hinc (rd ++ [d])
    exact walkDirRecs_eq_none.2 (Or.inr (walkList_none hmem hd hn))

theorem walkDir_none_of_unreadable {es : List FS} {dirs : List String}
    {nm : String} (hfa : FileAt es dirs nm none)
    (hclean : ∀ c ∈ dirs, c ∉ EXCLUDE_DIRS)
    (hinc : should_include_file nm = true) :
    ∀ rd, walkDirRecs es rd = none :=
  walkDir_none_gen hfa rfl hclean hinc

/-! ### Success: a tree whose files are all readable never aborts -/

theorem allReadable_mem {e : FS} {es : List FS} (hmem : e ∈ es)
    (h : allReadable es = true) : readableEntry e = true := by
  induction es with
  | nil => simp at hmem
  | cons e2 rest ih =>
    rw [allReadable] at h
    rcases List.mem_cons.1 hmem with he | hmem2
    · subst he
      exact (Bool.and_eq_true _ _ ▸ h).1
    · exact ih hmem2 (Bool.and_eq_true _ _ ▸ h).2

theorem walkDir_some_aux (n : Nat) :
    ∀ es : List FS, sizeOf es < n → allReadable es = true →
      ∀ rd, ∃ rs, walkDirRecs es rd = some rs := by
  induction n with
  | zero => intro es h; omega
  | succ n ih =>
    intro es hsz hread rd
    have hfiles : ∀ nm ob, FS.file nm ob ∈ es → ob.isSome = true := by
      intro nm ob hmem
      have := allReadable_mem hmem hread
      simpa [readableEntry] using this
    rcases @fileRecs_some_of_readable es rd hfiles with ⟨fs, hfs⟩
    have hsubs : ∀ d es2, FS.dir d es2 ∈ es → d ∉ EXCLUDE_DIRS →
        ∃ rs2, walkDirRecs es2 (rd ++ [d]) = some rs2 := by
      intro d es2 hmem hd
      have hread2 : allReadable es2 = true := by
        have := allReadable_mem hmem hread
        simpa [readableEntry] using this
      have hlt : sizeOf es2 < n :=
        lt_of_lt_of_le (sizeOf_entries_lt_of_mem hmem) (Nat.lt_succ_iff.1 hsz)
      exact ih es2 hlt hread2 (rd ++ [d])
    rcases walkList_some_of hsubs with ⟨ds, hds⟩
    exact ⟨fs ++ ds, walkDirRecs_eq_some.2 ⟨fs, ds, hfs, hds, rfl⟩⟩

theorem walkDir_some_of_allReadable {es : List FS} (h : allReadable es = true)
    (rd : List String) : ∃ rs, walkDirRecs es rd = some rs :=
  walkDir_some_aux (sizeOf es + 1) es (Nat.lt_succ_self _) h rd

/-! ### Uniqueness: in a well-formed tree no path is recorded twice -/

theorem wfList_cons {e : FS} {rest : List FS} :
    wfList (e :: rest) = true ↔
      (∀ e2 ∈ rest, e2.name ≠ e.name) ∧ wfEntry e = true ∧
        wfList rest = true := by
  simp only [wfList, List.all_eq_true, Bool.and_eq_true, bne_iff_ne]
  tauto

theorem wfList_mem {e : FS} {es : List FS} (hmem : e ∈ es)
    (h : wfList es = true) : wfEntry e = true := by
  induction es with
  | nil => simp at hmem
  | cons e2 rest ih =>
    rcases wfList_cons.1 h with ⟨_, hwfe, hwfr⟩
    rcases List.mem_cons.1 hmem with he | hmem2
    · subst he; exact hwfe
    · exact ih hmem2 hwfr

theorem walkDir_path_shape {es : List FS} {rd : List String} {d : String}
    {rs : List Rec} (h : walkDirRecs es (rd ++ [d]) = some rs) :
    ∀ r ∈ rs, ∃ t, r.1 = rd ++ d :: t := by
  intro r hr
  rcases walkDir_sound h r hr with ⟨dirs, nm, bytes, _, hre, _, _⟩
  exact ⟨dirs ++ [nm], by rw [hre]; simp⟩

theorem fileRecs_countP {es : List FS} {rd : List String} {fs : List Rec}
    {p : List String} (h : fileRecs es rd = some fs) (hwf : wfList es = true) :
    fs.countP (fun r => decide (r.1 = p)) ≤ 1 := by
  induction es generalizing fs with
  | nil =>
    simp [fileRecs] at h
    subst h
    simp
  | cons e rest ih =>
    rcases wfList_cons.1 hwf with ⟨hnames, _, hwfr⟩
    cases e with
    | file nm ob =>
      by_cases hinc : should_include_file nm = true
      · rcases ob with _ | b
        · simp [fileRecs, hinc] at h
        · rcases hrest : fileRecs rest rd with _ | more
          · simp [fileRecs, hinc, hrest] at h
          · simp [fileRecs, hinc, hrest] at h
            subst h
            rw [List.countP_cons]
            by_cases hp : rd ++ [nm] = p
            · have hzero : more.countP (fun r => decide (r.1 = p)) = 0 := by
                apply List.countP_eq_zero.2
                intro r hr
                rcases fileRecs_sound hrest r hr with ⟨nm2, b2, rfl, _, hmem⟩
                have hne : nm2 ≠ nm := hnames _ hmem
                simp only [decide_eq_true_eq]
                intro hcontra
                apply hne
                have := hp ▸ hcontra
                simpa using List.append_cancel_left this
              simp [hzero, hp]
            · have hpred : decide ((rd ++ [nm], decodeIgnore b).1 = p) = false := by
                simp [hp]
              rw [hpred]
              simpa using ih hrest hwfr
      · simp [fileRecs, hinc] at h
        exact ih h hwfr
    | dir d des =>
      simp [fileRecs] at h
      exact ih h hwfr

theorem walkList_countP {es : List FS} {rd : List String} {ds : List Rec}
    {p : List String} (h : walkList es rd = some ds) (hwf : wfList es = true)
    (hrec : ∀ d es2, FS.dir d es2 ∈ es → d ∉ EXCLUDE_DIRS →
      ∀ rs2, walkDirRecs es2 (rd ++ [d]) = some rs2 →
        ∀ q, rs2.countP (fun r => decide (r.1 = q)) ≤ 1) :
    ds.countP (fun r => decide (r.1 = p)) ≤ 1 := by
  induction es generalizing ds with
  | nil =>
    simp [walkList] at h
    subst h
    simp
  | cons e rest ih =>
    rcases wfList_cons.1 hwf with ⟨hnames, _, hwfr⟩
    have hrec2 : ∀ d es2, FS.dir d es2 ∈ rest → d ∉ EXCLUDE_DIRS →
        ∀ rs2, walkDirRecs es2 (rd ++ [d]) = some rs2 →
          ∀ q, rs2.countP (fun r => decide (r.1 = q)) ≤ 1 :=
      fun d es2 hm => hrec d es2 (List.mem_cons_of_mem _ hm)
    cases e with
    | file nm ob =>
      rw [walkList_cons_file] at h
      exact ih h hwfr hrec2
    | dir nm es2 =>
      by_cases hx : nm ∈ EXCLUDE_DIRS
      · rw [walkList_cons_dir_excl hx] at h
        exact ih h hwfr hrec2
      · rw [walkList_cons_dir hx] at h
        rcases hwd : walkDirRecs es2 (rd ++ [nm]) with _ | here
        · simp [hwd] at h
        rcases hwl : walkList rest rd with _ | there
        · simp [hwd, hwl] at h
        simp [hwd, hwl] at h
        subst h
        rw [List.countP_append]
        have hhere : here.countP (fun r => decide (r.1 = p)) ≤ 1 :=
          hrec nm es2 (List.mem_cons_self _ _) hx here hwd p
        have hthere : there.countP (fun r => decide (r.1 = p)) ≤ 1 :=
          ih hwl hwfr hrec2
        by_cases hp : ∃ t, p = rd ++ nm :: t
        · have hzero : there.countP (fun r => decide (r.1 = p)) = 0 := by
            apply List.countP_eq_zero.2
            intro r hr
            rcases walkList_sound hwl r hr with ⟨d2, es3, rs3, hmem, hd2, hwd2, hr3⟩
            rcases walkDir_path_shape hwd2 r hr3 with ⟨t2, ht2⟩
            rcases hp with ⟨t, rfl⟩
            simp only [decide_eq_true_eq]
            intro hcontra
            rw [ht2] at hcontra
            have heq : d2 :: t2 = nm :: t := List.append_cancel_left hcontra
            have : d2 = nm := (List.cons.injEq _ _ _ _ ▸ heq).1
            exact hnames _ hmem (by simpa [FS.name] using this)
          omega
        · have hzero : here.countP (fun r => decide (r.1 = p)) = 0 := by
            apply List.countP_eq_zero.2
            intro r hr
            rcases walkDir_path_shape hwd r hr with ⟨t, ht⟩
            simp only [decide_eq_true_eq]
            intro hcontra
            exact hp ⟨t, by rw [← hcontra, ht]⟩
          omega

theorem walkDir_countP_aux (n : Nat) :
    ∀ es : List FS, sizeOf es < n → wfList es = true →
      ∀ (rd : List String) (rs : List Rec), walkDirRecs es rd = some rs →
        ∀ p, rs.countP (fun r => decide (r.1 = p)) ≤ 1 := by
  induction n with
  | zero => intro es h; omega
  | succ n ih =>
    intro es hsz hwf rd rs h p
    rcases walkDirRecs_eq_some.1 h with ⟨fs, ds, hf, hw, rfl⟩
    rw [List.countP_append]
    have hrec : ∀ d es2, FS.dir d es2 ∈ es → d ∉ EXCLUDE_DIRS →
        ∀ rs2, walkDirRecs es2 (rd ++ [d]) = some rs2 →
          ∀ q, rs2.countP (fun r => decide (r.1 = q)) ≤ 1 := by
      intro d es2 hmem hd rs2 hwd q
      have hwf2 : wfList es2 = true := by
        simpa [wfEntry] using wfList_mem hmem hwf
      have hlt : sizeOf es2 < n :=
        lt_of_lt_of_le (sizeOf_entries_lt_of_mem hmem) (Nat.lt_succ_iff.1 hsz)
      exact ih es2 hlt hwf2 (rd ++ [d]) rs2 hwd q
    have hfs : fs.countP (fun r => decide (r.1 = p)) ≤ 1 := fileRecs_countP hf hwf
    have hds : ds.countP (fun r => decide (r.1 = p)) ≤ 1 :=
      walkList_countP hw hwf hrec
    by_cases hp : ∃ nm, p = rd ++ [nm]
    · have hzero : ds.countP (fun r => decide (r.1 = p)) = 0 := by
        apply List.countP_eq_zero.2
        intro r hr
        rcases walkList_sound hw r hr with ⟨d2, es3, rs3, _, _, hwd2, hr3⟩
        rcases walkDir_sound hwd2 r hr3 with ⟨dirs3, nm3, b3, _, hre3, _, _⟩
        rcases hp with ⟨nm, rfl⟩
        simp only [decide_eq_true_eq]
        intro hcontra
        rw [hre3] at hcontra
        simp only at hcontra
        have heq : d2 :: (dirs3 ++ [nm3]) = [nm] := by
          have hfull : rd ++ d2 :: (dirs3 ++ [nm3]) = rd ++ [nm] := by
            simpa [List.append_assoc] using hcontra
          exact List.append_cancel_left hfull
        have hlen := congrArg List.length heq
        simp at hlen
      omega
    · have hzero : fs.countP (fun r => decide (r.1 = p)) = 0 := by
        apply List.countP_eq_zero.2
        intro r hr
        rcases fileRecs_sound hf r hr with ⟨nm, b, rfl, _, _⟩
        simp only [decide_eq_true_eq]
        intro hcontra
        exact hp ⟨nm, hcontra.symm⟩
      omega

theorem walkDir_countP {es : List FS} {rd : List String} {rs : List Rec}
    (hwf : wfList es = true) (h : walkDirRecs es rd = some rs)
    (p : List String) : rs.countP (fun r => decide (r.1 = p)) ≤ 1 :=
  walkDir_countP_aux (sizeOf es + 1) es (Nat.lt_succ_self _) hwf rd rs h p

/-! ### A well-formed tree has at most one entry per name and path -/

theorem wf_name_unique {e1 e2 : FS} {es : List FS} (hwf : wfList es = true)
    (h1 : e1 ∈ es) (h2 : e2 ∈ es) (hn : e1.name = e2.name) : e1 = e2 := by
  induction es with
  | nil => simp at h1
  | cons e rest ih =>
    rcases wfList_cons.1 hwf with ⟨hnames, _, hwfr⟩
    rcases List.mem_cons.1 h1 with he1 | h1r <;>
      rcases List.mem_cons.1 h2 with he2 | h2r
    · subst he1; subst he2; rfl
    · subst he1
      exact absurd hn.symm (hnames _ h2r)
    · subst he2
      exact absurd hn (hnames _ h1r)
    · exact ih hwfr h1r h2r

theorem FileAt_unique {es : List FS} {dirs : List String} {nm : String}
    {ob1 : Option (List Nat)} (h1 : FileAt es dirs nm ob1) :
    ∀ {ob2 : Option (List Nat)}, wfList es = true →
      FileAt es dirs nm ob2 → ob1 = ob2 := by
  induction h1 with
  | here hmem =>
    intro ob2 hwf h2
    cases h2 with
    | here hmem2 =>
      have := wf_name_unique hwf hmem hmem2 rfl
      simpa [FS.file.injEq] using this
  | deeper hmem hfa ih =>
    rename_i d es2 dirs2 nm2 obx
    intro ob2 hwf h2
    cases h2 with
    | deeper hmem2 hfa2 =>
      rename_i es3
      have heq : FS.dir d es2 = FS.dir d es3 :=
        wf_name_unique hwf hmem hmem2 rfl
      have hes : es2 = es3 := by simpa [FS.dir.injEq] using heq
      subst hes
      have hwf2 : wfList es2 = true := by
        simpa [wfEntry] using wfList_mem hmem hwf
      exact ih hwf2 hfa2

/-! ### String helpers -/

theorem str_join_append (a b : List String) :
    String.join (a ++ b) = String.join a ++ String.join b := by
  apply String.ext
  rw [String.data_append, String.join_eq, String.join_eq, String.join_eq]
  simp

/-! ### Shape of the record list of a whole run -/

theorem records_filename {root : Option FS} {rs : List Rec}
    (h : runRecords root = some rs) :
    ∀ r ∈ rs, ∃ dirs fn, r.1 = dirs ++ [fn] ∧
      should_include_file fn = true ∧ ∀ c ∈ dirs, c ∉ EXCLUDE_DIRS := by
  intro r hr
  cases root with
  | none =>
    simp [runRecords] at h
    subst h
    simp at hr
  | some e =>
    cases e with
    | file nm ob =>
      simp [runRecords] at h
      subst h
      simp at hr
    | dir rn es =>
      simp only [runRecords] at h
      rcases walkDir_sound h r hr with ⟨dirs, fn, bytes, _, hre, hinc, hclean⟩
      exact ⟨dirs, fn, by rw [hre]; simp, hinc, hclean⟩

/-! ### Concrete sample trees used to instantiate the theorems -/

def sampleTree : List FS :=
  [FS.file "a.py" (some [104]),
   FS.file "notes.txt" (some [110]),
   FS.dir "node_modules" [FS.file "b.py" (some [105])],
   FS.dir "src" [FS.file "c.py" (some [99, 255, 100])]]

def sampleRoot : Option FS := some (FS.dir "r" sampleTree)

def sampleRecs : List Rec := [(["a.py"], "h"), (["src", "c.py"], "cd")]

def sampleOut : String :=
  "\n\n# ==== a.py ====\n\nh\n\n# ==== src/c.py ====\n\ncd"

theorem sampleRoot_records : runRecords sampleRoot = some sampleRecs := by
  simp +decide [sampleRoot, sampleTree, sampleRecs, runRecords, walkDirRecs,
    walkList, fileRecs]

theorem sampleRoot_output : runMain sampleRoot = some sampleOut := by
  rw [runMain, runMainFrom, sampleRoot_records]
  simp [recordString, joinPath, sampleRecs, openTruncate, sampleOut, String.join]
  rfl

/-! ## Claim theorems -/

/-- C1, counterexample: the claim asserts that a missing or unlistable root
makes the run fail with abnormal termination before producing output.  On the
code, `os.walk` silently ignores the `scandir` error (its default `onerror`
is `None`), so the run terminates normally (`some _`, not `none`) and the
output file is created and left empty. -/
theorem C1_counterexample : runMain none = some "" ∧ ¬ runMain none = none := by
  constructor
  · rfl
  · simp [runMain, runMainFrom, runRecords]

/-- C1, amended: if the root directory does not exist or cannot be listed,
the run nevertheless terminates normally: the traversal silently yields no
entries, and the output file is created (truncating any prior content) and
left empty. -/
theorem C1_amended_missing_root_normal_empty :
    ∀ priorContent : String, runMainFrom priorContent none = some "" :=
  fun _ => rfl

/-- C2: for every directory whose base name is in the excluded-directory set,
no file beneath it appears in the output: (1) no record path traverses an
excluded directory name, (2) any path whose directory chain contains an
excluded name has zero records, (3) pruning happens before descending — the
records are independent of the contents of an excluded subtree, which is
never examined. -/
theorem C2_excluded_dirs_pruned :
    ∀ (root : Option FS) (rs : List Rec), runRecords root = some rs →
      (∀ r ∈ rs, ∀ c ∈ r.1.dropLast, c ∉ EXCLUDE_DIRS) ∧
      (∀ (dirs : List String) (fn : String), (∃ c ∈ dirs, c ∈ EXCLUDE_DIRS) →
        rs.countP (fun r => decide (r.1 = dirs ++ [fn])) = 0) ∧
      (∀ (d : String) (es2 rest : List FS) (rd : List String),
        d ∈ EXCLUDE_DIRS →
        walkList (FS.dir d es2 :: rest) rd = walkList rest rd) := by
  intro root rs h
  have hmain : ∀ r ∈ rs, ∀ c ∈ r.1.dropLast, c ∉ EXCLUDE_DIRS := by
    intro r hr c hc
    rcases records_filename h r hr with ⟨dirs, fn, hre, _, hclean⟩
    have hdl : r.1.dropLast = dirs := by rw [hre]; simp
    exact hclean c (hdl ▸ hc)
  refine ⟨hmain, ?_, ?_⟩
  · rintro dirs fn ⟨c, hc, hcx⟩
    apply List.countP_eq_zero.2
    intro r hr
    simp only [decide_eq_true_eq]
    intro hcontra
    have hdl : r.1.dropLast = dirs := by rw [hcontra]; simp
    exact hmain r hr c (hdl ▸ hc) hcx
  · intro d es2 rest rd hd
    exact walkList_cons_dir_excl hd

/-- C2 witness at a concrete tree containing a `node_modules` subtree. -/
theorem C2_witness :
    (∀ r ∈ sampleRecs, ∀ c ∈ r.1.dropLast, c ∉ EXCLUDE_DIRS) ∧
    (∀ (dirs : List String) (fn : String), (∃ c ∈ dirs, c ∈ EXCLUDE_DIRS) →
      sampleRecs.countP (fun r => decide (r.1 = dirs ++ [fn])) = 0) ∧
    (∀ (d : String) (es2 rest : List FS) (rd : List String),
      d ∈ EXCLUDE_DIRS →
      walkList (FS.dir d es2 :: rest) rd = walkList rest rd) :=
  C2_excluded_dirs_pruned sampleRoot sampleRecs sampleRoot_records

/-- C6: a discovered, non-excluded file that cannot be opened at processing
time makes the exception propagate: the whole run aborts (`none`) whatever
the prior output content; there is no skip-and-continue. -/
theorem C6_unreadable_file_aborts :
    ∀ (priorContent rn : String) (es : List FS) (dirs : List String)
      (fn : String),
      FileAt es dirs fn none →
      (∀ c ∈ dirs, c ∉ EXCLUDE_DIRS) →
      should_include_file fn = true →
      runMainFrom priorContent (some (FS.dir rn es)) = none := by
  intro priorContent rn es dirs fn hfa hclean hinc
  have h := walkDir_none_of_unreadable hfa hclean hinc []
  simp [runMainFrom, runRecords, h]

/-- C6 witness: a root with a single unreadable `gone.py` aborts the run. -/
theorem C6_witness :
    runMainFrom "" (some (FS.dir "r" [FS.file "gone.py" none])) = none :=
  C6_unreadable_file_aborts "" "r" [FS.file "gone.py" none] [] "gone.py"
    (FileAt.here (by simp)) (by simp) (by decide)

/-- C7: whenever every file of the tree can be opened, the run terminates
normally whatever bytes the files hold — undecodable bytes never abort the
run; each record's content is the best-effort decoding (invalid sequences
dropped) of its file's bytes, and all reachable files are still processed. -/
theorem C7_decode_errors_never_abort :
    ∀ (rn : String) (es : List FS), allReadable es = true →
      ∃ rs, runRecords (some (FS.dir rn es)) = some rs ∧
        runMain (some (FS.dir rn es)) =
          some (String.join (rs.map recordString)) ∧
        ∀ r ∈ rs, ∃ dirs fn bytes, FileAt es dirs fn (some bytes) ∧
          r.2 = decodeIgnore bytes := by
  intro rn es hread
  rcases walkDir_some_of_allReadable hread [] with ⟨rs, hrs⟩
  have h : runRecords (some (FS.dir rn es)) = some rs := hrs
  refine ⟨rs, h, ?_, ?_⟩
  · simp [runMain, runMainFrom, h, openTruncate, String.empty_append]
  · intro r hr
    rcases walkDir_sound hrs r hr with ⟨dirs, fn, bytes, hfa, hre, _, _⟩
    exact ⟨dirs, fn, bytes, hfa, by rw [hre]⟩

/-- C7 witness: a tree whose first file holds the invalid byte 0xFF still
runs to completion. -/
theorem C7_witness :
    allReadable [FS.file "bad.py" (some [104, 255, 105]),
      FS.file "ok.py" (some [33])] = true ∧
    ∃ rs, runRecords (some (FS.dir "r"
        [FS.file "bad.py" (some [104, 255, 105]),
         FS.file "ok.py" (some [33])])) = some rs ∧
      runMain (some (FS.dir "r"
        [FS.file "bad.py" (some [104, 255, 105]),
         FS.file "ok.py" (some [33])])) =
        some (String.join (rs.map recordString)) ∧
      ∀ r ∈ rs, ∃ dirs fn bytes,
        FileAt [FS.file "bad.py" (some [104, 255, 105]),
          FS.file "ok.py" (some [33])] dirs fn (some bytes) ∧
        r.2 = decodeIgnore bytes :=
  ⟨by simp [allReadable, readableEntry],
   C7_decode_errors_never_abort "r" _ (by simp [allReadable, readableEntry])⟩

/-- C8: the output file is opened in truncating write mode, never appended:
the final output is independent of the output file's prior content; and for
an empty root directory the run completes with an existing, empty output
file (zero records). -/
theorem C8_truncate_and_empty_root :
    ∀ (priorContent : String) (root : Option FS) (rn : String),
      runMainFrom priorContent root = runMain root ∧
      runMainFrom priorContent (some (FS.dir rn [])) = some "" := by
  intro priorContent root rn
  constructor
  · rfl
  · simp [runMainFrom, runRecords, walkDirRecs, fileRecs, walkList,
      openTruncate]
    rfl

/-- C9: for a fixed file-system state (and the fixed enumeration order the
tree embodies) the run is deterministic and idempotent: re-running over the
previous output file reproduces the identical bytes, and no prior output
content influences the result. -/
theorem C9_deterministic_idempotent :
    ∀ (root : Option FS) (out : String), runMain root = some out →
      runMainFrom out root = some out ∧
      ∀ priorA priorB : String,
        runMainFrom priorA root = runMainFrom priorB root := by
  intro root out h
  exact ⟨h, fun _ _ => rfl⟩

/-- C9 witness: two runs over the sample tree produce byte-identical
output. -/
theorem C9_witness :
    runMainFrom sampleOut sampleRoot = some sampleOut ∧
    ∀ priorA priorB : String,
      runMainFrom priorA sampleRoot = runMainFrom priorB sampleRoot :=
  C9_deterministic_idempotent sampleRoot sampleOut sampleRoot_output

/-- C10: each filter set applies only to its own entry kind.  A regular file
whose name is in the excluded-directory set (such as a file named `dist`) is
still recorded, provided its name passes the extension filter; and a
directory whose name ends with an excluded extension (such as a directory
named `data.json`) is still descended into, its subtree records appearing
after the file's. -/
theorem C10_filters_apply_to_own_kind :
    ∀ (fn dn : String) (b : List Nat) (es2 : List FS) (rd : List String),
      fn ∈ EXCLUDE_DIRS → should_include_file fn = true →
      dn ∉ EXCLUDE_DIRS → (∃ ext ∈ EXCLUDE_EXTS, endswith dn ext = true) →
      walkDirRecs [FS.file fn (some b), FS.dir dn es2] rd =
        Option.bind (walkDirRecs es2 (rd ++ [dn])) fun sub =>
          some ((rd ++ [fn], decodeIgnore b) :: sub) := by
  intro fn dn b es2 rd hfdir hinc hdn hext
  have hf : fileRecs [FS.file fn (some b), FS.dir dn es2] rd =
      some [(rd ++ [fn], decodeIgnore b)] := by
    simp [fileRecs, hinc]
  rcases hsub : walkDirRecs es2 (rd ++ [dn]) with _ | sub
  · have hw : walkList [FS.file fn (some b), FS.dir dn es2] rd = none := by
      rw [walkList_cons_file, walkList_cons_dir hdn, hsub]
      rfl
    rw [walkDirRecs_eq_none.2 (Or.inr hw)]
    rfl
  · have hw : walkList [FS.file fn (some b), FS.dir dn es2] rd =
        some (sub ++ []) := by
      rw [walkList_cons_file, walkList_cons_dir hdn, hsub]
      simp [walkList]
    rw [walkDirRecs_eq_some.2 ⟨_, _, hf, hw, rfl⟩]
    simp

/-- C10 witness: a file named `dist` is recorded, a directory named
`data.json` is descended into. -/
theorem C10_witness :
    walkDirRecs [FS.file "dist" (some [104]),
        FS.dir "data.json" [FS.file "x.py" (some [105])]] [] =
      Option.bind (walkDirRecs [FS.file "x.py" (some [105])] ["data.json"])
        fun sub => some (([] ++ ["dist"], decodeIgnore [104]) :: sub) :=
  C10_filters_apply_to_own_kind "dist" "data.json" [104]
    [FS.file "x.py" (some [105])] [] (by decide) (by decide) (by decide)
    (by decide)

/-- C3: in a well-formed tree (distinct entry names per directory, as a real
file system guarantees), every readable file that is neither beneath an
excluded directory nor matched by the extension filter appears exactly once
in the record list, its record carrying its path relative to the root and its
decoded content verbatim; and the output is exactly the concatenation of one
header-plus-content string per record. -/
theorem C3_included_file_exactly_once :
    ∀ (rn : String) (es : List FS) (rs : List Rec) (dirs : List String)
      (fn : String) (bytes : List Nat),
      wfList es = true →
      runRecords (some (FS.dir rn es)) = some rs →
      FileAt es dirs fn (some bytes) →
      (∀ c ∈ dirs, c ∉ EXCLUDE_DIRS) →
      should_include_file fn = true →
      (dirs ++ [fn], decodeIgnore bytes) ∈ rs ∧
      rs.countP (fun r => decide (r.1 = dirs ++ [fn])) = 1 ∧
      (∀ r ∈ rs, r.1 = dirs ++ [fn] → r.2 = decodeIgnore bytes) ∧
      runMain (some (FS.dir rn es)) =
        some (String.join (rs.map recordString)) := by
  intro rn es rs dirs fn bytes hwf h hfa hclean hinc
  have hw : walkDirRecs es [] = some rs := h
  have hmem : (dirs ++ [fn], decodeIgnore bytes) ∈ rs := by
    have hc := walkDir_complete hw hfa hclean hinc
    simpa using hc
  refine ⟨hmem, ?_, ?_, ?_⟩
  · have hle := walkDir_countP hwf hw (dirs ++ [fn])
    have hpos : 0 < rs.countP (fun r => decide (r.1 = dirs ++ [fn])) :=
      List.countP_pos_iff.2 ⟨_, hmem, by simp⟩
    omega
  · intro r hr hre
    rcases walkDir_sound hw r hr with ⟨dirs2, fn2, b2, hfa2, hre2, _, _⟩
    have hr1 : r.1 = dirs2 ++ [fn2] := by rw [hre2]; simp
    have hpath : dirs2 ++ [fn2] = dirs ++ [fn] := by rw [← hr1, hre]
    obtain ⟨hd2, hn2⟩ := List.append_inj' hpath (by simp)
    have hfn : fn2 = fn := by simpa using hn2
    subst hd2
    subst hfn
    have hob := FileAt_unique hfa2 hwf hfa
    have hb : b2 = bytes := by simpa using hob
    rw [hre2, hb]
  · simp [runMain, runMainFrom, h, openTruncate, String.empty_append]

/-- C3 witness: the sample tree's `src/c.py` appears exactly once, with its
best-effort-decoded content. -/
theorem C3_witness :
    (["src"] ++ ["c.py"], decodeIgnore [99, 255, 100]) ∈ sampleRecs ∧
    sampleRecs.countP (fun r => decide (r.1 = ["src"] ++ ["c.py"])) = 1 ∧
    (∀ r ∈ sampleRecs, r.1 = ["src"] ++ ["c.py"] →
      r.2 = decodeIgnore [99, 255, 100]) ∧
    runMain (some (FS.dir "r" sampleTree)) =
      some (String.join (sampleRecs.map recordString)) :=
  C3_included_file_exactly_once "r" sampleTree sampleRecs ["src"] "c.py"
    [99, 255, 100]
    (by simp +decide [sampleTree, wfList, wfEntry, FS.name])
    sampleRoot_records
    (@FileAt.deeper sampleTree "src" [FS.file "c.py" (some [99, 255, 100])]
      [] "c.py" (some [99, 255, 100]) (by simp [sampleTree])
      (@FileAt.here [FS.file "c.py" (some [99, 255, 100])] "c.py"
        (some [99, 255, 100]) (by simp)))
    (by decide) (by decide)

/-- C4: a file is excluded precisely when its name ends with a member of the
excluded-extension set, by literal suffix match; every record's file name
passes the filter, and a path ending in a filtered name has zero records —
the content of an excluded file never appears, whatever its directory. -/
theorem C4_extension_filter :
    (∀ fn, should_include_file fn = false ↔
      ∃ ext ∈ EXCLUDE_EXTS, endswith fn ext = true) ∧
    (∀ (root : Option FS) (rs : List Rec), runRecords root = some rs →
      ∀ r ∈ rs, ∃ dirs fn, r.1 = dirs ++ [fn] ∧
        should_include_file fn = true) ∧
    (∀ (root : Option FS) (rs : List Rec) (dirs : List String) (fn : String),
      runRecords root = some rs → should_include_file fn = false →
      rs.countP (fun r => decide (r.1 = dirs ++ [fn])) = 0) := by
  refine ⟨?_, ?_, ?_⟩
  · intro fn
    simp [should_include_file, List.any_eq_true]
  · intro root rs h r hr
    rcases records_filename h r hr with ⟨dirs, fn, h1, h2, _⟩
    exact ⟨dirs, fn, h1, h2⟩
  · intro root rs dirs fn h hexc
    apply List.countP_eq_zero.2
    intro r hr
    simp only [decide_eq_true_eq]
    intro hcontra
    rcases records_filename h r hr with ⟨dirs2, fn2, h1, h2, _⟩
    have hpath : dirs2 ++ [fn2] = dirs ++ [fn] := by rw [← h1, hcontra]
    obtain ⟨_, hn⟩ := List.append_inj' hpath (by simp)
    have hfn : fn2 = fn := by simpa using hn
    rw [hfn] at h2
    rw [h2] at hexc
    exact Bool.noConfusion hexc

/-- C4 witness: `notes.txt` is excluded by the `.txt` suffix and has no
record in the sample run. -/
theorem C4_witness :
    (should_include_file "notes.txt" = false ↔
      ∃ ext ∈ EXCLUDE_EXTS, endswith "notes.txt" ext = true) ∧
    (∀ r ∈ sampleRecs, ∃ dirs fn, r.1 = dirs ++ [fn] ∧
      should_include_file fn = true) ∧
    sampleRecs.countP (fun r => decide (r.1 = [] ++ ["notes.txt"])) = 0 :=
  ⟨C4_extension_filter.1 "notes.txt",
   C4_extension_filter.2.1 sampleRoot sampleRecs sampleRoot_records,
   C4_extension_filter.2.2 sampleRoot sampleRecs [] "notes.txt"
     sampleRoot_records (by decide)⟩

/-- Decomposition of one record's bytes into the documented framing: blank
line, blank line, the literal header line, blank line, then the content. -/
theorem recordString_decomp (r : Rec) :
    recordString r =
      "\n" ++ "\n" ++ "# ==== " ++ joinPath r.1 ++ " ====" ++ "\n" ++ "\n"
        ++ r.2 := by
  have h1 : ("\n" ++ "\n" ++ "# ==== " : String) = "\n\n# ==== " := rfl
  have h2 : (" ====" ++ "\n" ++ "\n" : String) = " ====\n\n" := rfl
  rw [recordString, ← h1, ← h2]
  simp [String.append_assoc]

/-- C5: each record begins with the exact separator — a blank line, a blank
line, the header line `# ==== <relative_path> ====`, a blank line — followed
immediately by the content; the output is exactly the records' concatenation,
with nothing after the last record's content, and every record belongs to a
file (never to a directory). -/
theorem C5_separator_format :
    ∀ (rn : String) (es : List FS) (rs : List Rec),
      runRecords (some (FS.dir rn es)) = some rs →
      runMain (some (FS.dir rn es)) =
        some (String.join (rs.map recordString)) ∧
      (∀ r ∈ rs, recordString r =
        "\n" ++ "\n" ++ "# ==== " ++ joinPath r.1 ++ " ====" ++ "\n" ++ "\n"
          ++ r.2) ∧
      (∀ (rsInit : List Rec) (r : Rec), rs = rsInit ++ [r] →
        runMain (some (FS.dir rn es)) =
          some (String.join (rsInit.map recordString) ++ recordString r)) ∧
      (∀ r ∈ rs, ∃ dirs fn bytes, FileAt es dirs fn (some bytes) ∧
        r = (dirs ++ [fn], decodeIgnore bytes)) := by
  intro rn es rs h
  have hw : walkDirRecs es [] = some rs := h
  refine ⟨?_, ?_, ?_, ?_⟩
  · simp [runMain, runMainFrom, h, openTruncate, String.empty_append]
  · intro r _
    exact recordString_decomp r
  · rintro rsInit r rfl
    have hj : String.join (rsInit.map recordString ++ [recordString r]) =
        String.join (rsInit.map recordString) ++ recordString r := by
      rw [str_join_append]
      simp [String.join, String.empty_append]
    simp [runMain, runMainFrom, h, openTruncate, String.empty_append, hj]
  · intro r hr
    rcases walkDir_sound hw r hr with ⟨dirs, fn, bytes, hfa, hre, _, _⟩
    exact ⟨dirs, fn, bytes, hfa, by simpa using hre⟩

/-- C5 witness at the sample tree. -/
theorem C5_witness :
    runMain (some (FS.dir "r" sampleTree)) =
      some (String.join (sampleRecs.map recordString)) ∧
    (∀ r ∈ sampleRecs, recordString r =
      "\n" ++ "\n" ++ "# ==== " ++ joinPath r.1 ++ " ====" ++ "\n" ++ "\n"
        ++ r.2) ∧
    (∀ (rsInit : List Rec) (r : Rec), sampleRecs = rsInit ++ [r] →
      runMain (some (FS.dir "r" sampleTree)) =
        some (String.join (rsInit.map recordString) ++ recordString r)) ∧
    (∀ r ∈ sampleRecs, ∃ dirs fn bytes,
      FileAt sampleTree dirs fn (some bytes) ∧
      r = (dirs ++ [fn], decodeIgnore bytes)) :=
  C5_separator_format "r" sampleTree sampleRecs sampleRoot_records

/-! ## Evaluation sanity checks -/

theorem eval_include_go : should_include_file "main.go" = true := by decide

theorem eval_exclude_txt : should_include_file "notes.txt" = false := by decide

theorem eval_suffix_not_parsed :
    should_include_file "archive.txt.gz" = true := by decide

theorem eval_decode_ascii : decodeIgnore [104, 105] = "hi" := by rfl

theorem eval_decode_drops_invalid_byte :
    decodeIgnore [104, 255, 105] = "hi" := by rfl

theorem eval_decode_two_byte_sequence : decodeIgnore [0xC3, 0xA9] = "é" := by
  rfl

theorem eval_scenario_a :
    runMain (some (FS.dir "r" [FS.file "a.py" (some [104]),
      FS.dir "node_modules" [FS.file "b.py" (some [105])]])) =
    some "\n\n# ==== a.py ====\n\nh" := by
  simp +decide [runMain, runMainFrom, runRecords, walkDirRecs, walkList,
    fileRecs, recordString, joinPath, openTruncate, String.join]
